import Mathlib

/-!
# Verification of the caesar-transfer relay, registry and peer protocol

Shallow embedding of the core of the `caesar-transfer` repository
(`src/caesar-core`): the relay signalling state machine
(`relay/client.rs`), the transfer registry (`relay/server.rs`), the
receiver engine (`receiver/client.rs`, `receiver/mod.rs`) and the sender
engine (`sender/client.rs`), together with theorems about the behaviour
these components implement.

Machine integers are modelled by `Nat` (no arithmetic in the embedded
code overflows its Rust type on the inputs considered), byte strings by
`List Nat` with an explicit `< 256` bound where it matters, and channel
handles (compared with `Arc::ptr_eq` in the source) by `Nat` identifiers.
-/

namespace Caesar

/-! ## Relay signalling model (`src/caesar-core/src/relay/`)

A `Room` is `relay/room.rs`; the room map of `relay/appstate.rs` is an
association list with unique keys; each connection's `Client.room_id`
field (`relay/client.rs`) is kept in a second association list, absence
meaning `None`. -/

/-- `Room` of `relay/room.rs`: the ordered member channel list and the
capacity (`size`). -/
structure Room where
  senders : List Nat
  size : Nat
deriving Repr, DecidableEq

/-- `Room::DEFAULT_ROOM_SIZE` of `relay/room.rs`. -/
def DEFAULT_ROOM_SIZE : Nat := 2

/-- `ResponsePacket` of `relay/mod.rs`. -/
inductive ResponsePacket where
  | join (size : Option Nat)
  | create (id : String)
  | leave (index : Nat)
  | error (message : String)
deriving Repr, DecidableEq

/-- The whole relay configuration: `AppState.rooms` plus every
connection's `Client.room_id` field. -/
structure RelayState where
  rooms : List (String × Room)
  clientRoom : List (Nat × String)
deriving Repr, DecidableEq

/-- `server.rooms.get(&room_id)` on the association list. -/
def lookupRoom (rooms : List (String × Room)) (id : String) : Option Room :=
  (rooms.find? (fun p => p.1 == id)).map Prod.snd

/-- `server.rooms.contains_key(&room_id)`. -/
def containsRoom (rooms : List (String × Room)) (id : String) : Bool :=
  rooms.any (fun p => p.1 == id)

/-- In-place mutation of the room stored under `id`
(the `get_mut` + mutate pattern of `relay/client.rs`). -/
def updateRoom (rooms : List (String × Room)) (id : String) (r : Room) :
    List (String × Room) :=
  rooms.map (fun p => if p.1 == id then (p.1, r) else p)

/-- `server.rooms.remove(&room_id)`. -/
def removeRoom (rooms : List (String × Room)) (id : String) :
    List (String × Room) :=
  rooms.filter (fun p => p.1 != id)

/-- The `self.room_id` field of connection `c`. -/
def clientRoomId (st : RelayState) (c : Nat) : Option String :=
  (st.clientRoom.find? (fun p => p.1 == c)).map Prod.snd

/-- `self.room_id = Some(room_id)` for connection `c`. -/
def setClientRoom (m : List (Nat × String)) (c : Nat) (id : String) :
    List (Nat × String) :=
  (c, id) :: m.filter (fun p => p.1 != c)

/-- `self.room_id = None` for connection `c`. -/
def clearClientRoom (m : List (Nat × String)) (c : Nat) : List (Nat × String) :=
  m.filter (fun p => p.1 != c)

/-- The guard `server.rooms.iter().any(|(_, room)| room.senders.iter().any(|sender|
Arc::ptr_eq(sender, &self.sender)))` of `relay/client.rs`. -/
def inAnyRoom (rooms : List (String × Room)) (c : Nat) : Bool :=
  rooms.any (fun p => p.2.senders.contains c)

/-- `Client::handle_create_room` of `relay/client.rs` (lines 113-160).
`fresh` stands for the `Uuid::new_v4()` drawn when no id is supplied.
Returns the new relay state and the packets sent, each paired with the
channel it is sent on. -/
def handle_create_room (st : RelayState) (c : Nat) (id : Option String)
    (fresh : String) : RelayState × List (Nat × ResponsePacket) :=
  if inAnyRoom st.rooms c then (st, [])
  else
    let room_id := match id with
      | some id => id
      | none => fresh
    if containsRoom st.rooms room_id then
      (st, [(c, .error "A room with that identifier already exists.")])
    else
      let room : Room := { senders := [c], size := DEFAULT_ROOM_SIZE }
      ({ rooms := (room_id, room) :: st.rooms,
         clientRoom := setClientRoom st.clientRoom c room_id },
       [(c, .create room_id)])

/-- `Client::handle_join_room` of `relay/client.rs` (lines 172-225). -/
def handle_join_room (st : RelayState) (c : Nat) (room_id : String) :
    RelayState × List (Nat × ResponsePacket) :=
  if inAnyRoom st.rooms c then (st, [])
  else
    match lookupRoom st.rooms room_id with
    | none => (st, [(c, .error "The room does not exist.")])
    | some room =>
      if room.senders.length ≥ room.size then
        (st, [(c, .error "The room is full.")])
      else
        let room' : Room := { room with senders := room.senders ++ [c] }
        let outs := room'.senders.map (fun s =>
          if s == c then (c, ResponsePacket.join (some (room'.senders.length - 1)))
          else (s, ResponsePacket.join none))
        ({ rooms := updateRoom st.rooms room_id room',
           clientRoom := setClientRoom st.clientRoom c room_id }, outs)

/-- `Client::handle_leave_room` of `relay/client.rs` (lines 240-283).
When the client's `room_id` names a missing room, or the client is not in
that room's member list, the handler returns without clearing `room_id`,
exactly as the `let ... else return` chains in the source do. -/
def handle_leave_room (st : RelayState) (c : Nat) :
    RelayState × List (Nat × ResponsePacket) :=
  match clientRoomId st c with
  | none => (st, [])
  | some room_id =>
    match lookupRoom st.rooms room_id with
    | none => (st, [])
    | some room =>
      match room.senders.findIdx? (fun s => s == c) with
      | none => (st, [])
      | some index =>
        let senders' := room.senders.eraseIdx index
        let outs := senders'.map (fun s => (s, ResponsePacket.leave index))
        let rooms' := if senders'.isEmpty then removeRoom st.rooms room_id
          else updateRoom st.rooms room_id { room with senders := senders' }
        ({ rooms := rooms', clientRoom := clearClientRoom st.clientRoom c }, outs)

/-- The `Message::Binary` arm of `Client::handle_message` in
`relay/client.rs` (lines 310-372): address-byte rewriting and forwarding.
Returns the deliveries performed, each a channel paired with the frame
written to it. -/
def handle_binary (st : RelayState) (c : Nat) (data : List Nat) :
    List (Nat × List Nat) :=
  match clientRoomId st c with
  | none => []
  | some room_id =>
    match lookupRoom st.rooms room_id with
    | none => []
    | some room =>
      match room.senders.findIdx? (fun s => s == c) with
      | none => []
      | some index =>
        match data with
        | [] => []
        | d0 :: rest =>
          let source := index
          let data' := source :: rest
          if h : d0 < room.senders.length then
            [(room.senders.get ⟨d0, h⟩, data')]
          else if d0 = 255 then
            (room.senders.filter (fun s => !(s == c))).map (fun s => (s, data'))
          else []

/-- One inbound control event at the relay: the text-message arms of
`Client::handle_message` plus `handle_close` (connection close), which
delegates to `handle_leave_room`. -/
inductive RelayOp where
  | create (c : Nat) (id : Option String) (fresh : String)
  | join (c : Nat) (id : String)
  | leave (c : Nat)
  | close (c : Nat)

/-- Dispatch of one control event, as `Client::handle_message` does. -/
def relayStep (st : RelayState) : RelayOp → RelayState × List (Nat × ResponsePacket)
  | .create c id fresh => handle_create_room st c id fresh
  | .join c id => handle_join_room st c id
  | .leave c => handle_leave_room st c
  | .close c => handle_leave_room st c

/-- Run a sequence of control events from a state. -/
def relayRun (st : RelayState) : List RelayOp → RelayState
  | [] => st
  | op :: ops => relayRun (relayStep st op).1 ops

/-- The empty relay (`AppState::new`). -/
def initialRelay : RelayState := { rooms := [], clientRoom := [] }

/-- How many rooms of the map contain channel `c`. -/
def roomsWith (rooms : List (String × Room)) (c : Nat) : Nat :=
  rooms.countP (fun p => p.2.senders.contains c)

/-- The relay's room-map invariant: no empty room is kept, no room
exceeds its capacity, every capacity is the compile-time 2, a channel is
in at most one room, and the map's keys are unique. -/
def RelayInv (st : RelayState) : Prop :=
  (∀ p ∈ st.rooms, p.2.senders ≠ [] ∧ p.2.senders.length ≤ p.2.size ∧
    p.2.size = DEFAULT_ROOM_SIZE) ∧
  (∀ c : Nat, roomsWith st.rooms c ≤ 1) ∧
  (st.rooms.map Prod.fst).Nodup

/-! ## Transfer registry (`src/caesar-core/src/relay/server.rs`) -/

/-- `TransferRequest` / `TransferResponse` of `relay/transfer.rs`
(identical field lists). -/
structure TransferRec where
  name : String
  ip : String
  local_room_id : String
  relay_room_id : String
deriving Repr, DecidableEq

/-- The record `upload_info` creates when no advertisement matches
(`relay/server.rs`, `None` arm). -/
def newTransfer (payload : TransferRec) : TransferRec :=
  let localId := if payload.relay_room_id = "" then payload.local_room_id else ""
  let relayId := if payload.relay_room_id = "" then "" else payload.relay_room_id
  { name := payload.name, ip := payload.ip,
    local_room_id := localId, relay_room_id := relayId }

/-- `upload_info` of `relay/server.rs` (lines 176-231): find the first
stored advertisement with the payload's name and merge into it, or append
a fresh one at the end. Returns the HTTP status code, the response body
and the new advertisement list. -/
def upload_info (transfers : List TransferRec) (payload : TransferRec) :
    Nat × TransferRec × List TransferRec :=
  match transfers with
  | [] =>
    let t := newTransfer payload
    (201, t, [t])
  | r :: rest =>
    if r.name = payload.name then
      let r' := if r.relay_room_id = "" then
          { r with relay_room_id := payload.relay_room_id }
        else
          { r with local_room_id := payload.local_room_id }
      (200, r', r' :: rest)
    else
      let res := upload_info rest payload
      (res.1, res.2.1, r :: res.2.2)

/-! ## Receiver engine (`src/caesar-core/src/receiver/client.rs`) -/

/-- `File` of `receiver/client.rs`: `handle` is modelled by the bytes
written to the open file so far; `progress` is the integer percentage the
code stores in that field. -/
structure RecvFile where
  name : String
  size : Nat
  progress : Nat
  handle : List Nat
deriving Repr, DecidableEq

/-- The receiver `Context` of `receiver/client.rs`, restricted to the
fields the chunk and handshake handlers touch.  The AES key is abstracted
to the 16 raw secret bytes it is built from. -/
structure RecvContext where
  hmac : List Nat
  shared_key : Option (List Nat)
  files : List RecvFile
  sequence : Nat
  index : Nat
  progress : Nat
  length : Nat
deriving Repr, DecidableEq

/-- `Status` of `shared.rs` as used by the receiver handlers. -/
inductive RecvStatus where
  | Continue
  | Exit
  | Err (message : String)
deriving Repr, DecidableEq

/-- `on_chunk` of `receiver/client.rs` (lines 252-313).  Also returns the
`Progress{index, progress}` packets sent back to the sender. -/
def recv_on_chunk (ctx : RecvContext) (seq : Nat) (chunk : List Nat) :
    RecvStatus × RecvContext × List (Nat × Nat) :=
  if ctx.shared_key = none then
    (.Err "Invalid chunk packet: no shared key established", ctx, [])
  else if seq ≠ ctx.sequence then
    (.Err ("Expected sequence " ++ toString ctx.sequence ++ ", but got " ++
      toString seq ++ "."), ctx, [])
  else
    match ctx.files.get? ctx.index with
    | none => (.Err "Invalid file index.", ctx, [])
    | some file =>
      let length' := ctx.length + chunk.length
      let sequence' := ctx.sequence + 1
      let file' : RecvFile := { file with
        handle := file.handle ++ chunk,
        progress := (length' * 100) / file.size }
      let emit := file'.progress = 100 ∨ file'.progress - ctx.progress ≥ 1 ∨
        seq = 0
      let progress' := if emit then file'.progress else ctx.progress
      let sent := if emit then [(ctx.index, file'.progress)] else []
      let files' := ctx.files.set ctx.index file'
      if file.size = length' then
        (.Continue,
         { ctx with
           files := files',
           index := ctx.index + 1,
           length := 0,
           progress := 0,
           sequence := 0 }, sent)
      else
        (.Continue,
         { ctx with
           files := files',
           length := length',
           progress := progress',
           sequence := sequence' }, sent)

/-- Feed a list of chunk packets through `recv_on_chunk` in order,
stopping at the first non-`Continue` status (the connection loop in
`receiver/client.rs::start` terminates on any error).  Returns the
`(file index, sequence)` pairs of the accepted chunks. -/
def runChunks (ctx : RecvContext) : List (Nat × List Nat) → List (Nat × Nat)
  | [] => []
  | (s, data) :: rest =>
    match recv_on_chunk ctx s data with
    | (.Continue, ctx', _) => (ctx.index, s) :: runChunks ctx' rest
    | _ => []

/-- The sequence numbers accepted for file `i` in a run, in order. -/
def seqsFor (i : Nat) (accepted : List (Nat × Nat)) : List Nat :=
  (accepted.filter (fun p => p.1 == i)).map Prod.snd

/-- A packet emitted by a receiver handler on the outbound channel:
either the plaintext handshake response or an encrypted packet. -/
inductive RecvSent where
  | handshakeResponse (public_key signature : List Nat)
deriving Repr, DecidableEq

/-- `on_handshake` of `receiver/client.rs` (lines 328-385).  The two
cryptographic primitives the handler calls are passed in as functions:
`hmacSha256 key message` is `HMAC-SHA256` and `dhSecret peerPub` is the
raw ECDH shared secret for the context's ephemeral private key; `ownPub`
is that key's public part.  Signature verification
(`mac.verify_slice`) succeeds exactly when the recomputed tag equals the
presented one.  Returns the status, the new context and the packets
sent. -/
def recv_on_handshake (hmacSha256 : List Nat → List Nat → List Nat)
    (ownPub : List Nat) (dhSecret : List Nat → List Nat)
    (ctx : RecvContext) (public_key signature : List Nat) :
    RecvStatus × RecvContext × List RecvSent :=
  if ctx.shared_key.isSome then
    (.Err "Already performed handshake.", ctx, [])
  else if hmacSha256 ctx.hmac public_key ≠ signature then
    (.Err "Invalid signature from the sender.", ctx, [])
  else
    let own_signature := hmacSha256 ctx.hmac ownPub
    let shared_secret := (dhSecret public_key).take 16
    (.Continue, { ctx with shared_key := some shared_secret },
     [RecvSent.handshakeResponse ownPub own_signature])

/-! ## Sender chunk pump (`src/caesar-core/src/sender/client.rs`) -/

/-- `MAX_CHUNK_SIZE` of `sender/client.rs` (`u16::MAX as isize`). -/
def MAX_CHUNK_SIZE : Nat := 65535

/-- The per-file `while size > 0` loop of `on_chunk` in
`sender/client.rs` (lines 325-375), emitting `(sequence, chunk length)`
pairs.  In the source `chunk_size` is a variable initialised to
`MAX_CHUNK_SIZE` and shrunk by `if size < chunk_size { chunk_size = size }`;
since a shrink makes the current iteration the last one, the test is
equivalently re-evaluated against `MAX_CHUNK_SIZE` here. -/
def sender_chunk_loop (sequence : Nat) (size : Nat) : List (Nat × Nat) :=
  if _h : size = 0 then []
  else
    let chunk_size := if size < MAX_CHUNK_SIZE then size else MAX_CHUNK_SIZE
    (sequence, chunk_size) :: sender_chunk_loop (sequence + 1) (size - chunk_size)
termination_by size
decreasing_by
  simp only [MAX_CHUNK_SIZE]
  split <;> omega

/-! ## Invite codes (`sender/client.rs::on_create_room`,
`receiver/client.rs::start`) -/

/-- One character of the standard base64 alphabet
(`base64::engine::general_purpose::STANDARD`), for a 6-bit value. -/
def base64Char (n : Nat) : Char :=
  if n < 26 then Char.ofNat (65 + n)
  else if n < 52 then Char.ofNat (97 + (n - 26))
  else if n < 62 then Char.ofNat (48 + (n - 52))
  else if n = 62 then '+'
  else '/'

/-- Standard base64 encoding with `=` padding of a byte list, as
`general_purpose::STANDARD.encode` produces. -/
def base64Encode : List Nat → List Char
  | [] => []
  | [b1] => [base64Char (b1 / 4), base64Char (b1 % 4 * 16), '=', '=']
  | [b1, b2] => [base64Char (b1 / 4), base64Char (b1 % 4 * 16 + b2 / 16),
      base64Char (b2 % 16 * 4), '=']
  | b1 :: b2 :: b3 :: rest =>
    base64Char (b1 / 4) :: base64Char (b1 % 4 * 16 + b2 / 16) ::
      base64Char (b2 % 16 * 4 + b3 / 64) :: base64Char (b3 % 64) ::
      base64Encode rest

/-- Inverse of `base64Char` on the alphabet, `none` off it. -/
def base64Val (c : Char) : Option Nat :=
  if 'A' ≤ c ∧ c ≤ 'Z' then some (c.toNat - 65)
  else if 'a' ≤ c ∧ c ≤ 'z' then some (c.toNat - 97 + 26)
  else if '0' ≤ c ∧ c ≤ '9' then some (c.toNat - 48 + 52)
  else if c = '+' then some 62
  else if c = '/' then some 63
  else none

/-- Strict standard base64 decoding with canonical `=` padding, as
`general_purpose::STANDARD.decode` performs: four-character groups, `=`
padding only ending the input, trailing non-zero bits rejected. -/
def base64Decode : List Char → Option (List Nat)
  | [] => some []
  | a :: b :: c :: d :: rest =>
    match base64Val a, base64Val b with
    | some va, some vb =>
      if c = '=' then
        if d = '=' ∧ rest = [] then
          if vb % 16 = 0 then some [va * 4 + vb / 16] else none
        else none
      else
        match base64Val c with
        | some vc =>
          if d = '=' then
            if rest = [] then
              if vc % 4 = 0 then
                some [va * 4 + vb / 16, vb % 16 * 16 + vc / 4]
              else none
            else none
          else
            match base64Val d with
            | some vd =>
              match base64Decode rest with
              | some bytes =>
                some ((va * 4 + vb / 16) :: (vb % 16 * 16 + vc / 4) ::
                  (vc % 4 * 64 + vd) :: bytes)
              | none => none
            | none => none
        | none => none
    | _, _ => none
  | _ => none

/-- The invite code the sender constructs in `on_create_room`
(`sender/client.rs` line 99): `format!("{}-{}", id, base64)`. -/
def mkInvite (room_id : List Char) (hmac : List Nat) : List Char :=
  room_id ++ '-' :: base64Encode hmac

/-- Index of the last `-`, as `str::rfind('-')` computes (invite codes
are ASCII, so byte and character indices coincide). -/
def rfindDash : List Char → Option Nat
  | [] => none
  | c :: rest =>
    match rfindDash rest with
    | some i => some (i + 1)
    | none => if c = '-' then some 0 else none

/-- The invite parse of `receiver/client.rs::start` (lines 468-479):
split at the rightmost `-`, then base64-decode the tail.  `none` models
the two early returns (invalid invite code / invalid base64). -/
def parseInvite (fragment : List Char) : Option (List Char × List Nat) :=
  match rfindDash fragment with
  | none => none
  | some index =>
    let id := fragment.take index
    let hmacStr := fragment.drop (index + 1)
    match base64Decode hmacStr with
    | none => none
    | some hmac => some (id, hmac)

/-! ## Receiver entry point (`src/caesar-core/src/receiver/mod.rs`) -/

/-- An externally visible action of `start_receiver`: the HTTP requests
of `receiver/http_client.rs` and the two signalling connection attempts
(`start_ws_com`). -/
inductive RecvAction where
  | getDownload (hashedName : String)
  | wsAttempt (url : String) (roomId : String) (ok : Bool)
  | postDownloadSuccess (hashedName : String)
deriving Repr, DecidableEq

/-- `start_receiver` of `receiver/mod.rs` (lines 49-75), as the trace of
its externally visible actions.  `getRes` is the outcome of the initial
`GET /download` (`none` makes the `.unwrap()` panic, ending the run);
`localOk res` and `relayOk res` say whether each `start_ws_com` call
returns `Ok` (the transfer outcome inside a successfully opened
connection does not influence that result). -/
def start_receiver (hashedName : String) (relay : String)
    (getRes : Option TransferRec) (localOk relayOk : TransferRec → Bool) :
    List RecvAction :=
  match getRes with
  | none => [RecvAction.getDownload hashedName]
  | some res =>
    let localUrl := "ws://" ++ res.ip ++ ":9000"
    let attempts :=
      if localOk res then [RecvAction.wsAttempt localUrl res.local_room_id true]
      else
        RecvAction.wsAttempt localUrl res.local_room_id false ::
          [RecvAction.wsAttempt relay res.relay_room_id (relayOk res)]
    RecvAction.getDownload hashedName :: attempts ++
      [RecvAction.postDownloadSuccess hashedName]

/-! ## Lemmas: the relay room-map invariant -/

lemma inAnyRoom_false {rooms : List (String × Room)} {c : Nat}
    (h : inAnyRoom rooms c = false) : ∀ p ∈ rooms, c ∉ p.2.senders := by
  intro p hp
  have hfalse := List.any_eq_false.mp h p hp
  simpa using hfalse

lemma roomsWith_eq_zero {rooms : List (String × Room)} {c : Nat}
    (h : inAnyRoom rooms c = false) : roomsWith rooms c = 0 := by
  apply List.countP_eq_zero.mpr
  intro p hp
  simpa using inAnyRoom_false h p hp

lemma lookupRoom_mem {rooms : List (String × Room)} {id : String} {room : Room}
    (h : lookupRoom rooms id = some room) : (id, room) ∈ rooms := by
  unfold lookupRoom at h
  cases hf : rooms.find? (fun p => p.1 == id) with
  | none => rw [hf] at h; simp at h
  | some p =>
    rw [hf] at h
    simp only [Option.map_some', Option.some.injEq] at h
    have hmem := List.mem_of_find?_eq_some hf
    have hkey := List.find?_some hf
    simp only [beq_iff_eq] at hkey
    have : p = (id, room) := Prod.ext hkey h
    rwa [this] at hmem

lemma containsRoom_false {rooms : List (String × Room)} {id : String}
    (h : containsRoom rooms id = false) : id ∉ rooms.map Prod.fst := by
  intro hmem
  rcases List.mem_map.mp hmem with ⟨p, hp, hk⟩
  have hfalse := List.any_eq_false.mp h p hp
  simp [hk] at hfalse

lemma updateRoom_keys (rooms : List (String × Room)) (id : String) (r : Room) :
    (updateRoom rooms id r).map Prod.fst = rooms.map Prod.fst := by
  unfold updateRoom
  rw [List.map_map]
  apply List.map_congr_left
  intro p _
  simp only [Function.comp_apply]
  split <;> rfl

lemma mem_updateRoom {rooms : List (String × Room)} {id : String} {r : Room}
    {q : String × Room} (hq : q ∈ updateRoom rooms id r) :
    q ∈ rooms ∨ q.2 = r := by
  unfold updateRoom at hq
  rcases List.mem_map.mp hq with ⟨p, hp, hpq⟩
  by_cases hk : (p.1 == id) = true
  · right; rw [if_pos hk] at hpq; rw [← hpq]
  · left; rw [if_neg hk] at hpq; rwa [← hpq]

lemma countP_updateRoom (rooms : List (String × Room)) (id : String) (r : Room)
    (q : String × Room → Bool) :
    (updateRoom rooms id r).countP q =
      rooms.countP (fun p => if p.1 == id then q (p.1, r) else q p) := by
  unfold updateRoom
  rw [List.countP_map]
  apply List.countP_congr
  intro p _
  simp only [Function.comp_apply]
  split <;> simp

/-- Entries of a map with `Nodup` keys are determined by their key. -/
lemma entry_eq_of_nodup_keys {rooms : List (String × Room)}
    (hkeys : (rooms.map Prod.fst).Nodup) {p : String × Room} {id : String}
    {room : Room} (hp : p ∈ rooms) (hfound : (id, room) ∈ rooms)
    (hid : p.1 = id) : p = (id, room) := by
  exact List.inj_on_of_nodup_map hkeys hp hfound (by simpa using hid)

lemma relayInv_create (st : RelayState) (c : Nat) (id : Option String)
    (fresh : String) (hinv : RelayInv st) :
    RelayInv (handle_create_room st c id fresh).1 := by
  obtain ⟨hrooms, hcount, hkeys⟩ := hinv
  unfold handle_create_room
  cases hany : inAnyRoom st.rooms c with
  | true => exact ⟨hrooms, hcount, hkeys⟩
  | false =>
    simp only [Bool.false_eq_true, if_false]
    cases hcont : containsRoom st.rooms (match id with | some id => id | none => fresh) with
    | true => exact ⟨hrooms, hcount, hkeys⟩
    | false =>
      simp only [Bool.false_eq_true, if_false]
      refine ⟨?_, ?_, ?_⟩
      · intro p hp
        rcases List.mem_cons.mp hp with hnew | hold
        · subst hnew
          exact ⟨by simp, by simp [DEFAULT_ROOM_SIZE], rfl⟩
        · exact hrooms p hold
      · intro d
        unfold roomsWith
        rw [List.countP_cons]
        by_cases hd : d = c
        · subst hd
          have hzero := roomsWith_eq_zero hany
          unfold roomsWith at hzero
          rw [hzero]
          split <;> omega
        · have hle := hcount d
          unfold roomsWith at hle
          have hcond : ((((match id with | some i => i | none => fresh),
              ({ senders := [c], size := DEFAULT_ROOM_SIZE } : Room)) :
              String × Room).2.senders.contains d) = false := by
            simp [hd]
          rw [hcond]
          simpa using hle
      · rw [List.map_cons]
        exact List.nodup_cons.mpr ⟨containsRoom_false hcont, hkeys⟩

lemma countP_keys_le_one {rooms : List (String × Room)}
    (hkeys : (rooms.map Prod.fst).Nodup) (id : String) :
    rooms.countP (fun p => p.1 == id) ≤ 1 := by
  have h1 : rooms.countP (fun p => p.1 == id) =
      (rooms.map Prod.fst).countP (fun k => k == id) := by
    rw [List.countP_map]; rfl
  rw [h1, ← List.count_eq_countP]
  exact List.nodup_iff_count_le_one.mp hkeys id

lemma relayInv_join (st : RelayState) (c : Nat) (room_id : String)
    (hinv : RelayInv st) : RelayInv (handle_join_room st c room_id).1 := by
  obtain ⟨hrooms, hcount, hkeys⟩ := hinv
  unfold handle_join_room
  cases hany : inAnyRoom st.rooms c with
  | true => exact ⟨hrooms, hcount, hkeys⟩
  | false =>
    simp only [Bool.false_eq_true, if_false]
    cases hlook : lookupRoom st.rooms room_id with
    | none => exact ⟨hrooms, hcount, hkeys⟩
    | some room =>
      by_cases hfull : room.senders.length ≥ room.size
      · simp only [hfull, if_true]
        exact ⟨hrooms, hcount, hkeys⟩
      · simp only [hfull, if_false]
        have hmem := lookupRoom_mem hlook
        have hprops := hrooms _ hmem
        refine ⟨?_, ?_, ?_⟩
        · intro p hp
          rcases mem_updateRoom hp with hold | hnew
          · exact hrooms p hold
          · rw [hnew]
            refine ⟨by simp, ?_, hprops.2.2⟩
            simp only [List.length_append, List.length_singleton]
            omega
        · intro d
          unfold roomsWith
          rw [countP_updateRoom]
          by_cases hd : d = c
          · subst hd
            refine le_trans (List.countP_mono_left ?_) (countP_keys_le_one hkeys room_id)
            intro p hp hpred
            by_cases hk : (p.1 == room_id) = true
            · exact hk
            · rw [if_neg hk] at hpred
              have := inAnyRoom_false hany p hp
              simp at hpred
              exact absurd hpred this
          · have hcongr : ∀ p ∈ st.rooms,
                (if p.1 == room_id then
                  ((room.senders ++ [c]).contains d) = true
                else (p.2.senders.contains d) = true) ↔
                (p.2.senders.contains d) = true := by
              intro p hp
              by_cases hk : (p.1 == room_id) = true
              · rw [if_pos hk]
                have hpe : p = (room_id, room) :=
                  entry_eq_of_nodup_keys hkeys hp hmem (by simpa using hk)
                rw [hpe]
                simp [hd]
              · rw [if_neg hk]
            calc st.rooms.countP (fun p => if p.1 == room_id then
                    ((room.senders ++ [c]).contains d)
                  else (p.2.senders.contains d))
                = st.rooms.countP (fun p => p.2.senders.contains d) := by
                  apply List.countP_congr
                  intro p hp
                  simpa using hcongr p hp
              _ ≤ 1 := hcount d
        · rw [updateRoom_keys]
          exact hkeys

lemma relayInv_leave (st : RelayState) (c : Nat) (hinv : RelayInv st) :
    RelayInv (handle_leave_room st c).1 := by
  obtain ⟨hrooms, hcount, hkeys⟩ := hinv
  unfold handle_leave_room
  cases hcr : clientRoomId st c with
  | none => exact ⟨hrooms, hcount, hkeys⟩
  | some room_id =>
    dsimp only
    cases hlook : lookupRoom st.rooms room_id with
    | none => exact ⟨hrooms, hcount, hkeys⟩
    | some room =>
      dsimp only
      cases hidx : room.senders.findIdx? (fun s => s == c) with
      | none => exact ⟨hrooms, hcount, hkeys⟩
      | some index =>
        dsimp only
        have hmem := lookupRoom_mem hlook
        have hprops := hrooms _ hmem
        have hsub : List.Sublist (room.senders.eraseIdx index) room.senders :=
          List.eraseIdx_sublist room.senders index
        by_cases hemp : (room.senders.eraseIdx index).isEmpty = true
        · rw [if_pos hemp]
          refine ⟨?_, ?_, ?_⟩
          · intro p hp
            exact hrooms p (List.mem_of_mem_filter hp)
          · intro d
            exact le_trans ((List.filter_sublist _).countP_le _) (hcount d)
          · exact hkeys.sublist ((List.filter_sublist _).map _)
        · rw [if_neg hemp]
          refine ⟨?_, ?_, ?_⟩
          · intro p hp
            rcases mem_updateRoom hp with hold | hnew
            · exact hrooms p hold
            · rw [hnew]
              refine ⟨?_, ?_, hprops.2.2⟩
              · simpa [List.isEmpty_iff] using hemp
              · exact le_trans hsub.length_le hprops.2.1
          · intro d
            unfold roomsWith
            rw [countP_updateRoom]
            refine le_trans (List.countP_mono_left ?_) (hcount d)
            intro p hp hpred
            by_cases hk : (p.1 == room_id) = true
            · have hpe : p = (room_id, room) :=
                entry_eq_of_nodup_keys hkeys hp hmem (by simpa using hk)
              rw [if_pos hk] at hpred
              rw [hpe]
              simp only [beq_iff_eq] at hpred ⊢
              simp at hpred ⊢
              exact hsub.subset hpred
            · rwa [if_neg hk] at hpred
          · rw [updateRoom_keys]
            exact hkeys

lemma relayInv_step (st : RelayState) (op : RelayOp) (hinv : RelayInv st) :
    RelayInv (relayStep st op).1 := by
  cases op with
  | create c id fresh => exact relayInv_create st c id fresh hinv
  | join c id => exact relayInv_join st c id hinv
  | leave c => exact relayInv_leave st c hinv
  | close c => exact relayInv_leave st c hinv

lemma relayInv_run (ops : List RelayOp) (st : RelayState) (hinv : RelayInv st) :
    RelayInv (relayRun st ops) := by
  induction ops generalizing st with
  | nil => exact hinv
  | cons op ops ih => exact ih _ (relayInv_step st op hinv)

lemma relayInv_initial : RelayInv initialRelay := by
  refine ⟨?_, ?_, ?_⟩ <;> simp [initialRelay, roomsWith]

/-! ## Claim C1 -/

/-- C1: for every sequence of create, join, leave and connection-close
operations handled by the relay from its initial empty state, every
room's member list length stays between 0 and its capacity
(`DEFAULT_ROOM_SIZE = 2`), any one connection's channel handle appears in
at most one room across the whole relay, and removing the last member of
a room deletes that room from the room map — equivalently, the room map
never holds an empty room. -/
theorem claim_C1_relay_invariants (ops : List RelayOp) :
    (∀ p ∈ (relayRun initialRelay ops).rooms,
      p.2.senders.length ≤ DEFAULT_ROOM_SIZE ∧ p.2.senders ≠ []) ∧
    (∀ c : Nat, roomsWith (relayRun initialRelay ops).rooms c ≤ 1) := by
  obtain ⟨hrooms, hcount, _⟩ := relayInv_run ops initialRelay relayInv_initial
  refine ⟨?_, hcount⟩
  intro p hp
  obtain ⟨hne, hle, hsz⟩ := hrooms p hp
  exact ⟨hsz ▸ hle, hne⟩

/-- Witness for C1: a create followed by a join yields a two-member room,
within capacity, and channel 0 is in at most one room. -/
theorem claim_C1_witness :
    (("a", ({ senders := [0, 1], size := 2 } : Room)).2.senders.length ≤
        DEFAULT_ROOM_SIZE ∧
      ("a", ({ senders := [0, 1], size := 2 } : Room)).2.senders ≠ []) ∧
    roomsWith (relayRun initialRelay
      [RelayOp.create 0 (some "a") "f", RelayOp.join 1 "a"]).rooms 0 ≤ 1 :=
  ⟨(claim_C1_relay_invariants
      [RelayOp.create 0 (some "a") "f", RelayOp.join 1 "a"]).1
      ("a", { senders := [0, 1], size := 2 }) (by decide),
   (claim_C1_relay_invariants
      [RelayOp.create 0 (some "a") "f", RelayOp.join 1 "a"]).2 0⟩

/-! ## Claim C2 -/

/-- C2: for every binary frame the relay handles from a connection that
is a member of a room, the first byte is rewritten from the destination
to the sender's own index before any delivery; destination byte 255 fans
the rewritten frame out to every room member except the sender; a valid
occupant index delivers it to exactly that member; any other destination,
an empty frame, or a frame from a connection not in a room delivers
nothing. -/
theorem claim_C2_binary_forwarding (st : RelayState) (c : Nat)
    (room_id : String) (room : Room) (index d0 : Nat) (rest : List Nat)
    (hcr : clientRoomId st c = some room_id)
    (hlook : lookupRoom st.rooms room_id = some room)
    (hidx : room.senders.findIdx? (fun s => s == c) = some index)
    (hlen : room.senders.length ≤ 255) :
    (d0 = 255 →
      handle_binary st c (d0 :: rest) =
        (room.senders.filter (fun s => !(s == c))).map
          (fun s => (s, index :: rest)) ∧
      ∀ s ∈ room.senders, s ≠ c →
        (s, index :: rest) ∈ handle_binary st c (d0 :: rest)) ∧
    (∀ h : d0 < room.senders.length,
      handle_binary st c (d0 :: rest) =
        [(room.senders.get ⟨d0, h⟩, index :: rest)]) ∧
    (d0 ≠ 255 → ¬ d0 < room.senders.length →
      handle_binary st c (d0 :: rest) = []) ∧
    handle_binary st c [] = [] ∧
    (∀ st' : RelayState, ∀ c' : Nat, ∀ data : List Nat,
      clientRoomId st' c' = none → handle_binary st' c' data = []) := by
  refine ⟨?_, ?_, ?_, ?_, ?_⟩
  · intro h255
    subst h255
    have hnotlt : ¬ (255 < room.senders.length) := by omega
    have heq : handle_binary st c (255 :: rest) =
        (room.senders.filter (fun s => !(s == c))).map
          (fun s => (s, index :: rest)) := by
      unfold handle_binary
      rw [hcr]
      dsimp only
      rw [hlook]
      dsimp only
      rw [hidx]
      dsimp only
      rw [dif_neg hnotlt, if_pos rfl]
    refine ⟨heq, ?_⟩
    intro s hs hsc
    rw [heq]
    apply List.mem_map.mpr
    refine ⟨s, ?_, rfl⟩
    apply List.mem_filter.mpr
    exact ⟨hs, by simpa using hsc⟩
  · intro h
    unfold handle_binary
    rw [hcr]
    dsimp only
    rw [hlook]
    dsimp only
    rw [hidx]
    dsimp only
    rw [dif_pos h]
  · intro hne hnotlt
    unfold handle_binary
    rw [hcr]
    dsimp only
    rw [hlook]
    dsimp only
    rw [hidx]
    dsimp only
    rw [dif_neg hnotlt, if_neg hne]
  · unfold handle_binary
    rw [hcr]
    dsimp only
    rw [hlook]
    dsimp only
    rw [hidx]
  · intro st' c' data h
    unfold handle_binary
    rw [h]

/-- Witness for C2: in a two-member room, a broadcast frame from member 0
reaches exactly member 1 with the address byte rewritten to 0, an indexed
frame reaches the named member, and out-of-range destinations deliver
nothing. -/
theorem claim_C2_witness :
    handle_binary
      { rooms := [("a", { senders := [10, 11], size := 2 })],
        clientRoom := [(10, "a"), (11, "a")] } 10 [255, 7, 8] =
      [(11, [0, 7, 8])] ∧
    handle_binary
      { rooms := [("a", { senders := [10, 11], size := 2 })],
        clientRoom := [(10, "a"), (11, "a")] } 10 [1, 7, 8] =
      [(11, [0, 7, 8])] ∧
    handle_binary
      { rooms := [("a", { senders := [10, 11], size := 2 })],
        clientRoom := [(10, "a"), (11, "a")] } 10 [9, 7, 8] = [] := by
  have h := claim_C2_binary_forwarding
    { rooms := [("a", { senders := [10, 11], size := 2 })],
      clientRoom := [(10, "a"), (11, "a")] } 10 "a"
    { senders := [10, 11], size := 2 } 0 255 [7, 8]
    (by decide) (by decide) (by decide) (by decide)
  have h1 := claim_C2_binary_forwarding
    { rooms := [("a", { senders := [10, 11], size := 2 })],
      clientRoom := [(10, "a"), (11, "a")] } 10 "a"
    { senders := [10, 11], size := 2 } 0 1 [7, 8]
    (by decide) (by decide) (by decide) (by decide)
  have h9 := claim_C2_binary_forwarding
    { rooms := [("a", { senders := [10, 11], size := 2 })],
      clientRoom := [(10, "a"), (11, "a")] } 10 "a"
    { senders := [10, 11], size := 2 } 0 9 [7, 8]
    (by decide) (by decide) (by decide) (by decide)
  refine ⟨?_, ?_, ?_⟩
  · rw [(h.1 rfl).1]
    decide
  · rw [h1.2.1 (by decide)]
    decide
  · rw [h9.2.2.1 (by decide) (by decide)]

/-! ## Claim C7 -/

/-- C7: a `join{id}` from a connection in the Lobby (a member of no
room): if no room with that id exists the relay replies with exactly one
error message "The room does not exist."; if the room is full it replies
with exactly one error message "The room is full."; in both cases the
relay state — room map and every membership, and the connection's (absent)
room assignment — is unchanged. -/
theorem claim_C7_join_room_errors (st : RelayState) (c : Nat) (id : String)
    (hlobby : inAnyRoom st.rooms c = false) :
    (lookupRoom st.rooms id = none →
      handle_join_room st c id =
        (st, [(c, ResponsePacket.error "The room does not exist.")])) ∧
    (∀ room, lookupRoom st.rooms id = some room →
      room.senders.length ≥ room.size →
      handle_join_room st c id =
        (st, [(c, ResponsePacket.error "The room is full.")])) := by
  constructor
  · intro hnone
    unfold handle_join_room
    rw [hlobby]
    simp only [Bool.false_eq_true, if_false]
    rw [hnone]
  · intro room hsome hfull
    unfold handle_join_room
    rw [hlobby]
    simp only [Bool.false_eq_true, if_false]
    rw [hsome]
    dsimp only
    rw [if_pos hfull]

/-- A concrete relay state for the C7 witness: one full room. -/
def c7State : RelayState :=
  { rooms := [("a", { senders := [5, 6], size := 2 })],
    clientRoom := [(5, "a"), (6, "a")] }

/-- Witness for C7: joining a missing room and joining a full room each
produce exactly the specified single error reply and leave the state
unchanged. -/
theorem claim_C7_witness :
    handle_join_room c7State 9 "nope" =
      (c7State, [(9, ResponsePacket.error "The room does not exist.")]) ∧
    handle_join_room c7State 9 "a" =
      (c7State, [(9, ResponsePacket.error "The room is full.")]) :=
  ⟨(claim_C7_join_room_errors c7State 9 "nope" (by decide)).1 (by decide),
   (claim_C7_join_room_errors c7State 9 "a" (by decide)).2
     { senders := [5, 6], size := 2 } (by decide) (by decide)⟩

/-! ## Claim C8 -/

/-- A concrete relay state for C8: connection 0 is a member of room
"a". -/
def c8State : RelayState :=
  { rooms := [("a", { senders := [0], size := 2 })],
    clientRoom := [(0, "a")] }

/-- C8 counterexample: a connection that is already a member of a room
and issues `create{id}` (or `join{id}`) receives no reply at all — the
relay ignores the message silently — refuting the claim that an
AlreadyInRoom violation is reported to the client with an error reply. -/
theorem claim_C8_counterexample :
    (handle_create_room c8State 0 (some "b") "f").2 = [] ∧
    (handle_join_room c8State 0 "a").2 = [] := by decide

/-- C8 amended: a `create{id}` with an id that already maps to a room,
from a connection in no room, is answered with exactly one error reply
("A room with that identifier already exists.") and changes nothing;
`create` or `join` from a connection that is already a member of some
room is silently ignored — no reply is sent — and the relay state,
including that connection's room assignment, is unchanged. -/
theorem claim_C8_amended (st : RelayState) (c : Nat) :
    (∀ (id : Option String) (fresh : String),
      inAnyRoom st.rooms c = false →
      containsRoom st.rooms (id.getD fresh) = true →
      handle_create_room st c id fresh =
        (st, [(c, ResponsePacket.error
          "A room with that identifier already exists.")])) ∧
    (∀ (id : Option String) (fresh : String), inAnyRoom st.rooms c = true →
      handle_create_room st c id fresh = (st, [])) ∧
    (∀ id : String, inAnyRoom st.rooms c = true →
      handle_join_room st c id = (st, [])) := by
  refine ⟨?_, ?_, ?_⟩
  · intro id fresh hlobby hdup
    unfold handle_create_room
    rw [hlobby]
    simp only [Bool.false_eq_true, if_false]
    cases id with
    | none =>
      simp only [Option.getD_none] at hdup
      rw [hdup]
      simp
    | some i =>
      simp only [Option.getD_some] at hdup
      rw [hdup]
      simp
  · intro id fresh hin
    unfold handle_create_room
    rw [hin]
    rfl
  · intro id hin
    unfold handle_join_room
    rw [hin]
    rfl

/-- Witness for C8 amended: on `c8State`, a Lobby connection creating the
existing room "a" gets the duplicate-id error, while connection 0
(already in room "a") is ignored on both create and join. -/
theorem claim_C8_witness :
    handle_create_room c8State 7 (some "a") "f" =
      (c8State, [(7, ResponsePacket.error
        "A room with that identifier already exists.")]) ∧
    handle_create_room c8State 0 (some "b") "f" = (c8State, []) ∧
    handle_join_room c8State 0 "a" = (c8State, []) :=
  ⟨(claim_C8_amended c8State 7).1 (some "a") "f" (by decide) (by decide),
   (claim_C8_amended c8State 0).2.1 (some "b") "f" (by decide),
   (claim_C8_amended c8State 0).2.2 "a" (by decide)⟩

/-! ## Claim C4 -/

/-- C4: `PUT /upload`: with no stored advertisement of the payload's
name, a new advertisement is appended — keeping the payload's
`relay_room_id` if it is non-empty and otherwise its `local_room_id`,
the other room-id field stored empty — and the response is 201 with the
new record; with a stored match, its `relay_room_id` is overwritten by
the incoming one when it was empty and otherwise its `local_room_id` is
overwritten by the incoming one, and the response is 200 with the merged
record. -/
theorem claim_C4_upload_merge (payload : TransferRec) :
    (∀ transfers : List TransferRec,
      (∀ r ∈ transfers, r.name ≠ payload.name) →
      upload_info transfers payload =
        (201,
         if payload.relay_room_id = "" then
           { name := payload.name, ip := payload.ip,
             local_room_id := payload.local_room_id, relay_room_id := "" }
         else
           { name := payload.name, ip := payload.ip,
             local_room_id := "", relay_room_id := payload.relay_room_id },
         transfers ++
           [if payload.relay_room_id = "" then
             { name := payload.name, ip := payload.ip,
               local_room_id := payload.local_room_id, relay_room_id := "" }
           else
             { name := payload.name, ip := payload.ip,
               local_room_id := "", relay_room_id := payload.relay_room_id }])) ∧
    (∀ (pre post : List TransferRec) (r : TransferRec),
      (∀ q ∈ pre, q.name ≠ payload.name) → r.name = payload.name →
      upload_info (pre ++ r :: post) payload =
        (200,
         if r.relay_room_id = "" then
           { r with relay_room_id := payload.relay_room_id }
         else
           { r with local_room_id := payload.local_room_id },
         pre ++
           (if r.relay_room_id = "" then
             { r with relay_room_id := payload.relay_room_id }
           else
             { r with local_room_id := payload.local_room_id }) :: post)) := by
  constructor
  · intro transfers hnone
    induction transfers with
    | nil =>
      by_cases hrel : payload.relay_room_id = "" <;>
        simp [upload_info, newTransfer, hrel]
    | cons q rest ih =>
      have hq : q.name ≠ payload.name := hnone q (List.mem_cons_self q rest)
      have hrest : ∀ r ∈ rest, r.name ≠ payload.name :=
        fun r hr => hnone r (List.mem_cons_of_mem q hr)
      rw [List.cons_append]
      unfold upload_info
      rw [if_neg hq, ih hrest]
  · intro pre post r hpre hr
    induction pre with
    | nil =>
      rw [List.nil_append, List.nil_append]
      unfold upload_info
      rw [if_pos hr]
    | cons q pre' ih =>
      have hq : q.name ≠ payload.name := hpre q (List.mem_cons_self q pre')
      have hpre' : ∀ p ∈ pre', p.name ≠ payload.name :=
        fun p hp => hpre p (List.mem_cons_of_mem q hp)
      rw [List.cons_append, List.cons_append]
      unfold upload_info
      rw [if_neg hq, ih hpre']

/-- Witness for C4: a first upload advertising only a relay room id is
appended with status 201 and an empty local room id; a second upload for
the same name fills the empty field and returns 200 with the merged
record. -/
theorem claim_C4_witness :
    upload_info [] (⟨"n", "i", "L", "R"⟩ : TransferRec) =
      (201, (⟨"n", "i", "", "R"⟩ : TransferRec),
        [(⟨"n", "i", "", "R"⟩ : TransferRec)]) ∧
    upload_info [(⟨"n", "i", "", "R"⟩ : TransferRec)]
      (⟨"n", "i2", "L2", ""⟩ : TransferRec) =
      (200, (⟨"n", "i", "L2", "R"⟩ : TransferRec),
        [(⟨"n", "i", "L2", "R"⟩ : TransferRec)]) := by
  constructor
  · have h := (claim_C4_upload_merge (⟨"n", "i", "L", "R"⟩ : TransferRec)).1
      [] (by simp)
    rw [h]
    decide
  · have h := (claim_C4_upload_merge (⟨"n", "i2", "L2", ""⟩ : TransferRec)).2
      [] [] (⟨"n", "i", "", "R"⟩ : TransferRec) (by simp) (by decide)
    simp only [List.nil_append] at h
    rw [h]
    decide

/-! ## Claim C5 -/

/-- C5: a receiver with no shared key yet, handling a `Handshake` whose
HMAC-SHA256 signature over the enclosed public key does not verify under
the receiver's HMAC secret, fails with the bad-signature error: it sends
no `HandshakeResponse`, its shared key stays unset and its file list (no
files are created outside `on_list`) is unchanged. -/
theorem claim_C5_bad_signature
    (hmacSha256 : List Nat → List Nat → List Nat) (ownPub : List Nat)
    (dhSecret : List Nat → List Nat) (ctx : RecvContext)
    (public_key signature : List Nat)
    (hnokey : ctx.shared_key = none)
    (hbad : hmacSha256 ctx.hmac public_key ≠ signature) :
    recv_on_handshake hmacSha256 ownPub dhSecret ctx public_key signature =
      (.Err "Invalid signature from the sender.", ctx, []) ∧
    (recv_on_handshake hmacSha256 ownPub dhSecret ctx public_key
      signature).2.1.shared_key = none ∧
    (recv_on_handshake hmacSha256 ownPub dhSecret ctx public_key
      signature).2.1.files = ctx.files := by
  have heq : recv_on_handshake hmacSha256 ownPub dhSecret ctx public_key
      signature = (.Err "Invalid signature from the sender.", ctx, []) := by
    unfold recv_on_handshake
    rw [hnokey]
    simp [hbad]
  exact ⟨heq, by rw [heq]; exact hnokey, by rw [heq]⟩

/-- Witness for C5: a concrete context with no shared key and a
mismatched signature is rejected without any output. -/
theorem claim_C5_witness :
    recv_on_handshake (fun k m => k ++ m) [7] (fun p => p)
      { hmac := [1], shared_key := none, files := [], sequence := 0,
        index := 0, progress := 0, length := 0 } [2] [9] =
      (.Err "Invalid signature from the sender.",
       { hmac := [1], shared_key := none, files := [], sequence := 0,
         index := 0, progress := 0, length := 0 }, []) :=
  (claim_C5_bad_signature (fun k m => k ++ m) [7] (fun p => p)
    { hmac := [1], shared_key := none, files := [], sequence := 0,
      index := 0, progress := 0, length := 0 } [2] [9]
    rfl (by decide)).1

/-! ## Claim C10 -/

/-- `download_success` of `relay/server.rs` (lines 288-320): delete the
advertisement whose name matches, 404 when none does. -/
def download_success_server (transfers : List TransferRec) (name : String) :
    Nat × String × List TransferRec :=
  match transfers.findIdx? (fun r => r.name == name) with
  | some index => (200, "transfer deleted", transfers.eraseIdx index)
  | none => (404, "transfer not found", transfers)

/-- C10: in every run of `start_receiver` in which the initial
`GET /download` succeeds, the `POST /download_success/{hashed_name}`
request is issued after the connection attempts finish, whatever their
outcomes (it is the last action of the trace); and on the relay that POST
deletes the stored advertisement of that name. -/
theorem claim_C10_always_posts_success (hashedName relay : String)
    (res : TransferRec) (localOk relayOk : TransferRec → Bool) :
    (start_receiver hashedName relay (some res) localOk relayOk).getLast? =
      some (RecvAction.postDownloadSuccess hashedName) ∧
    RecvAction.postDownloadSuccess hashedName ∈
      start_receiver hashedName relay (some res) localOk relayOk ∧
    (∀ (transfers : List TransferRec) (i : Nat),
      transfers.findIdx? (fun r => r.name == hashedName) = some i →
      download_success_server transfers hashedName =
        (200, "transfer deleted", transfers.eraseIdx i)) := by
  refine ⟨?_, ?_, ?_⟩
  · unfold start_receiver
    cases hl : localOk res <;>
      simp [hl, ← List.cons_append, List.getLast?_concat]
  · unfold start_receiver
    cases hl : localOk res <;> simp [hl]
  · intro transfers i hfind
    unfold download_success_server
    rw [hfind]

/-- Witness for C10: with both connection attempts failing, the success
POST is still the final action, and it deletes the matching
advertisement. -/
theorem claim_C10_witness :
    (start_receiver "h" "r" (some (⟨"h", "ip", "L", "R"⟩ : TransferRec))
      (fun _ => false) (fun _ => false)).getLast? =
      some (RecvAction.postDownloadSuccess "h") ∧
    download_success_server [(⟨"h", "ip", "L", "R"⟩ : TransferRec)] "h" =
      (200, "transfer deleted", []) := by
  have h := claim_C10_always_posts_success "h" "r"
    (⟨"h", "ip", "L", "R"⟩ : TransferRec) (fun _ => false) (fun _ => false)
  refine ⟨h.1, ?_⟩
  have h2 := h.2.2 [(⟨"h", "ip", "L", "R"⟩ : TransferRec)] 0 (by decide)
  rw [h2]
  decide

/-! ## Claim C9 -/

/-- One unfolding step of the chunk-pump loop when bytes remain. -/
lemma sender_chunk_loop_pos (sequence s : Nat) (h : s ≠ 0) :
    sender_chunk_loop sequence s =
      (sequence, if s < MAX_CHUNK_SIZE then s else MAX_CHUNK_SIZE) ::
        sender_chunk_loop (sequence + 1)
          (s - if s < MAX_CHUNK_SIZE then s else MAX_CHUNK_SIZE) := by
  rw [sender_chunk_loop]
  rw [dif_neg h]

lemma sender_chunk_loop_zero (sequence : Nat) :
    sender_chunk_loop sequence 0 = [] := by
  rw [sender_chunk_loop]
  rfl

/-- The sequence numbers emitted for a file of `s` remaining bytes are
consecutive from the starting sequence. -/
lemma sender_chunk_loop_fst (s : Nat) : ∀ sequence : Nat,
    (sender_chunk_loop sequence s).map Prod.fst =
      List.range' sequence ((s + (MAX_CHUNK_SIZE - 1)) / MAX_CHUNK_SIZE) := by
  induction s using Nat.strong_induction_on with
  | _ s ih =>
    intro sequence
    by_cases h0 : s = 0
    · subst h0
      rw [sender_chunk_loop_zero]
      norm_num [MAX_CHUNK_SIZE]
    · rw [sender_chunk_loop_pos _ _ h0]
      by_cases hlt : s < MAX_CHUNK_SIZE
      · rw [if_pos hlt]
        rw [List.map_cons, Nat.sub_self, sender_chunk_loop_zero]
        have hcnt : (s + (MAX_CHUNK_SIZE - 1)) / MAX_CHUNK_SIZE = 1 := by
          simp only [MAX_CHUNK_SIZE] at hlt ⊢
          omega
        rw [hcnt, List.range'_one]
        rfl
      · rw [if_neg hlt]
        have hrec : s - MAX_CHUNK_SIZE < s := by
          simp only [MAX_CHUNK_SIZE] at hlt ⊢
          omega
        rw [List.map_cons, ih (s - MAX_CHUNK_SIZE) hrec (sequence + 1)]
        have hcnt : (s + (MAX_CHUNK_SIZE - 1)) / MAX_CHUNK_SIZE =
            ((s - MAX_CHUNK_SIZE) + (MAX_CHUNK_SIZE - 1)) / MAX_CHUNK_SIZE + 1 := by
          simp only [MAX_CHUNK_SIZE] at hlt ⊢
          omega
        rw [hcnt, List.range'_succ]

/-- The chunk sizes emitted for a file of `s > 0` bytes: full chunks
followed by the remainder chunk (a full chunk when `s` is a multiple of
the cap). -/
lemma sender_chunk_loop_snd (s : Nat) (h0 : 0 < s) : ∀ sequence : Nat,
    (sender_chunk_loop sequence s).map Prod.snd =
      List.replicate ((s + (MAX_CHUNK_SIZE - 1)) / MAX_CHUNK_SIZE - 1)
          MAX_CHUNK_SIZE ++
        [if s % MAX_CHUNK_SIZE = 0 then MAX_CHUNK_SIZE
         else s % MAX_CHUNK_SIZE] := by
  induction s using Nat.strong_induction_on with
  | _ s ih =>
    intro sequence
    rw [sender_chunk_loop_pos _ _ (by omega)]
    by_cases hlt : s < MAX_CHUNK_SIZE
    · rw [if_pos hlt]
      rw [List.map_cons, Nat.sub_self, sender_chunk_loop_zero]
      have hcnt : (s + (MAX_CHUNK_SIZE - 1)) / MAX_CHUNK_SIZE - 1 = 0 := by
        simp only [MAX_CHUNK_SIZE] at hlt ⊢
        omega
      have hmod : (if s % MAX_CHUNK_SIZE = 0 then MAX_CHUNK_SIZE
          else s % MAX_CHUNK_SIZE) = s := by
        simp only [MAX_CHUNK_SIZE] at hlt ⊢
        rw [if_neg (by omega), Nat.mod_eq_of_lt hlt]
      rw [hcnt, hmod]
      rfl
    · rw [if_neg hlt]
      by_cases hend : s = MAX_CHUNK_SIZE
      · subst hend
        rw [List.map_cons, Nat.sub_self, sender_chunk_loop_zero]
        norm_num [MAX_CHUNK_SIZE]
      · have hgt : MAX_CHUNK_SIZE < s := by
          simp only [MAX_CHUNK_SIZE] at hlt hend ⊢
          omega
        have hrec : s - MAX_CHUNK_SIZE < s := by
          simp only [MAX_CHUNK_SIZE]
          omega
        have hpos : 0 < s - MAX_CHUNK_SIZE := by
          simp only [MAX_CHUNK_SIZE] at hgt ⊢
          omega
        rw [List.map_cons, ih (s - MAX_CHUNK_SIZE) hrec hpos (sequence + 1)]
        have hcnt : (s + (MAX_CHUNK_SIZE - 1)) / MAX_CHUNK_SIZE - 1 =
            (((s - MAX_CHUNK_SIZE) + (MAX_CHUNK_SIZE - 1)) / MAX_CHUNK_SIZE
              - 1) + 1 := by
          simp only [MAX_CHUNK_SIZE] at hgt ⊢
          omega
        have hmod : (s - MAX_CHUNK_SIZE) % MAX_CHUNK_SIZE =
            s % MAX_CHUNK_SIZE := by
          simp only [MAX_CHUNK_SIZE] at hgt ⊢
          omega
        rw [hcnt, hmod, List.replicate_succ, List.cons_append]

/-- C9: a file of `s > 0` bytes makes the sender's chunk pump emit
exactly `ceil(s / 65535)` chunk packets, with sequence numbers `0`
through `ceil(s / 65535) - 1`, each carrying 65535 bytes except a final
chunk of `s mod 65535` bytes when `s` is not a multiple of 65535; a file
of exactly 65535 bytes produces exactly one chunk, and a multiple of
65535 emits no trailing short chunk. -/
theorem claim_C9_sender_chunk_pump (s : Nat) (h0 : 0 < s) :
    (sender_chunk_loop 0 s).length = (s + (MAX_CHUNK_SIZE - 1)) / MAX_CHUNK_SIZE ∧
    (sender_chunk_loop 0 s).map Prod.fst =
      List.range ((s + (MAX_CHUNK_SIZE - 1)) / MAX_CHUNK_SIZE) ∧
    (sender_chunk_loop 0 s).map Prod.snd =
      List.replicate ((s + (MAX_CHUNK_SIZE - 1)) / MAX_CHUNK_SIZE - 1)
          MAX_CHUNK_SIZE ++
        [if s % MAX_CHUNK_SIZE = 0 then MAX_CHUNK_SIZE
         else s % MAX_CHUNK_SIZE] ∧
    (s = MAX_CHUNK_SIZE → sender_chunk_loop 0 s = [(0, MAX_CHUNK_SIZE)]) ∧
    (s % MAX_CHUNK_SIZE = 0 →
      (sender_chunk_loop 0 s).map Prod.snd =
        List.replicate ((s + (MAX_CHUNK_SIZE - 1)) / MAX_CHUNK_SIZE)
          MAX_CHUNK_SIZE) := by
  have hfst := sender_chunk_loop_fst s 0
  have hsnd := sender_chunk_loop_snd s h0 0
  refine ⟨?_, ?_, hsnd, ?_, ?_⟩
  · have := congrArg List.length hfst
    simpa using this
  · rw [hfst, List.range_eq_range']
  · intro hend
    subst hend
    rw [sender_chunk_loop_pos _ _ (by omega), if_neg (by omega),
      Nat.sub_self, sender_chunk_loop_zero]
  · intro hmul
    rw [hsnd, if_pos hmul]
    have hcnt : 0 < (s + (MAX_CHUNK_SIZE - 1)) / MAX_CHUNK_SIZE := by
      simp only [MAX_CHUNK_SIZE] at h0 ⊢
      omega
    rw [← List.replicate_succ']
    congr 1
    omega

/-- Witness for C9: a file of 2 · 65535 + 1 bytes is cut into two full
chunks and one 1-byte chunk, with sequence numbers 0, 1, 2; 65535 bytes
give exactly one chunk. -/
theorem claim_C9_witness :
    (sender_chunk_loop 0 131071).map Prod.snd = [65535, 65535, 1] ∧
    (sender_chunk_loop 0 131071).map Prod.fst = [0, 1, 2] ∧
    sender_chunk_loop 0 65535 = [(0, 65535)] := by
  have h := claim_C9_sender_chunk_pump 131071 (by omega)
  have h1 := claim_C9_sender_chunk_pump 65535 (by omega)
  refine ⟨?_, ?_, h1.2.2.2.1 rfl⟩
  · rw [h.2.2.1]
    decide
  · rw [h.2.1]
    decide

/-! ## Claim C6 -/

/-- `base64Val` inverts `base64Char` on 6-bit values. -/
lemma base64Val_base64Char : ∀ n : Nat, n < 64 →
    base64Val (base64Char n) = some n := by decide

/-- The base64 alphabet does not contain the invite separator. -/
lemma base64Char_ne_dash : ∀ n : Nat, n < 64 → base64Char n ≠ '-' := by
  decide

/-- The base64 alphabet does not contain the padding character. -/
lemma base64Char_ne_pad : ∀ n : Nat, n < 64 → base64Char n ≠ '=' := by
  decide

/-- Every character `base64Encode` produces is padding or an alphabet
character. -/
theorem base64Encode_chars : ∀ (bs : List Nat), (∀ b ∈ bs, b < 256) →
    ∀ ch ∈ base64Encode bs, ch = '=' ∨ ∃ n, n < 64 ∧ ch = base64Char n
  | [], _ => by simp [base64Encode]
  | [b1], h => by
    have hb1 : b1 < 256 := h b1 (by simp)
    intro ch hch
    simp only [base64Encode, List.mem_cons, List.not_mem_nil, or_false]
      at hch
    rcases hch with h1 | h2 | h3 | h4
    · exact Or.inr ⟨b1 / 4, by omega, h1⟩
    · exact Or.inr ⟨b1 % 4 * 16, by omega, h2⟩
    · exact Or.inl h3
    · exact Or.inl h4
  | [b1, b2], h => by
    have hb1 : b1 < 256 := h b1 (by simp)
    have hb2 : b2 < 256 := h b2 (by simp)
    intro ch hch
    simp only [base64Encode, List.mem_cons, List.not_mem_nil, or_false]
      at hch
    rcases hch with h1 | h2 | h3 | h4
    · exact Or.inr ⟨b1 / 4, by omega, h1⟩
    · exact Or.inr ⟨b1 % 4 * 16 + b2 / 16, by omega, h2⟩
    · exact Or.inr ⟨b2 % 16 * 4, by omega, h3⟩
    · exact Or.inl h4
  | b1 :: b2 :: b3 :: rest, h => by
    have hb1 : b1 < 256 := h b1 (by simp)
    have hb2 : b2 < 256 := h b2 (by simp)
    have hb3 : b3 < 256 := h b3 (by simp)
    have hrest : ∀ b ∈ rest, b < 256 := fun b hb => h b (by
      simp only [List.mem_cons] at hb ⊢
      tauto)
    intro ch hch
    simp only [base64Encode, List.mem_cons] at hch
    rcases hch with h1 | h2 | h3 | h4 | h5
    · exact Or.inr ⟨b1 / 4, by omega, h1⟩
    · exact Or.inr ⟨b1 % 4 * 16 + b2 / 16, by omega, h2⟩
    · exact Or.inr ⟨b2 % 16 * 4 + b3 / 64, by omega, h3⟩
    · exact Or.inr ⟨b3 % 64, by omega, h4⟩
    · exact base64Encode_chars rest hrest ch h5

/-- Standard base64 with padding decodes its own encoding: the receiver
recovers exactly the bytes the sender encoded. -/
theorem base64_roundtrip : ∀ (bs : List Nat), (∀ b ∈ bs, b < 256) →
    base64Decode (base64Encode bs) = some bs
  | [], _ => rfl
  | [b1], h => by
    have hb1 : b1 < 256 := h b1 (by simp)
    show base64Decode
      [base64Char (b1 / 4), base64Char (b1 % 4 * 16), '=', '='] = some [b1]
    rw [base64Decode]
    rw [base64Val_base64Char _ (by omega), base64Val_base64Char _ (by omega)]
    dsimp only
    rw [if_pos rfl, if_pos ⟨rfl, rfl⟩, if_pos (by omega)]
    have hb : b1 / 4 * 4 + b1 % 4 * 16 / 16 = b1 := by omega
    rw [hb]
  | [b1, b2], h => by
    have hb1 : b1 < 256 := h b1 (by simp)
    have hb2 : b2 < 256 := h b2 (by simp)
    show base64Decode
      [base64Char (b1 / 4), base64Char (b1 % 4 * 16 + b2 / 16),
        base64Char (b2 % 16 * 4), '='] = some [b1, b2]
    rw [base64Decode]
    rw [base64Val_base64Char _ (by omega), base64Val_base64Char _ (by omega)]
    dsimp only
    rw [if_neg (base64Char_ne_pad _ (by omega))]
    rw [base64Val_base64Char _ (by omega)]
    dsimp only
    rw [if_pos rfl, if_pos rfl, if_pos (by omega)]
    have ha : b1 / 4 * 4 + (b1 % 4 * 16 + b2 / 16) / 16 = b1 := by omega
    have hb : (b1 % 4 * 16 + b2 / 16) % 16 * 16 + b2 % 16 * 4 / 4 = b2 := by
      omega
    rw [ha, hb]
  | b1 :: b2 :: b3 :: rest, h => by
    have hb1 : b1 < 256 := h b1 (by simp)
    have hb2 : b2 < 256 := h b2 (by simp)
    have hb3 : b3 < 256 := h b3 (by simp)
    have hrest : ∀ b ∈ rest, b < 256 := fun b hb => h b (by
      simp only [List.mem_cons] at hb ⊢
      tauto)
    show base64Decode
      (base64Char (b1 / 4) :: base64Char (b1 % 4 * 16 + b2 / 16) ::
        base64Char (b2 % 16 * 4 + b3 / 64) :: base64Char (b3 % 64) ::
        base64Encode rest) = some (b1 :: b2 :: b3 :: rest)
    rw [base64Decode]
    rw [base64Val_base64Char _ (by omega), base64Val_base64Char _ (by omega)]
    dsimp only
    rw [if_neg (base64Char_ne_pad _ (by omega))]
    rw [base64Val_base64Char _ (by omega)]
    dsimp only
    rw [if_neg (base64Char_ne_pad _ (by omega))]
    rw [base64Val_base64Char _ (by omega)]
    dsimp only
    rw [base64_roundtrip rest hrest]
    have ha : b1 / 4 * 4 + (b1 % 4 * 16 + b2 / 16) / 16 = b1 := by omega
    have hb : (b1 % 4 * 16 + b2 / 16) % 16 * 16 +
        (b2 % 16 * 4 + b3 / 64) / 4 = b2 := by omega
    have hc : (b2 % 16 * 4 + b3 / 64) % 4 * 64 + b3 % 64 = b3 := by omega
    rw [ha, hb, hc]

/-- A string without `-` has no rightmost `-`. -/
lemma rfindDash_of_not_mem : ∀ (l : List Char), '-' ∉ l → rfindDash l = none
  | [], _ => rfl
  | c :: rest, h => by
    have h1 : '-' ∉ rest := fun hm => h (List.mem_cons_of_mem c hm)
    have h2 : ¬(c = '-') := fun he => h (he ▸ List.mem_cons_self c rest)
    rw [rfindDash, rfindDash_of_not_mem rest h1]
    simp [h2]

/-- The rightmost `-` of `xs ++ "-" ++ tail` with a dash-free tail sits
right after `xs`. -/
lemma rfindDash_append (xs tail : List Char) (h : '-' ∉ tail) :
    rfindDash (xs ++ '-' :: tail) = some xs.length := by
  induction xs with
  | nil =>
    rw [List.nil_append, rfindDash, rfindDash_of_not_mem tail h]
    simp
  | cons x xs ih =>
    rw [List.cons_append, rfindDash, ih]
    simp

/-- C6: for every room-id string (hyphens allowed) and every byte string
HMAC secret, the invite code `"<room_id>-<base64(hmac)>"` built by the
sender is split by the receiver at the rightmost `-` into exactly the
original room id and exactly the original HMAC secret; an invite with no
`-` at all is rejected. -/
theorem claim_C6_invite_roundtrip :
    (∀ (room_id : List Char) (hmac : List Nat), (∀ b ∈ hmac, b < 256) →
      parseInvite (mkInvite room_id hmac) = some (room_id, hmac)) ∧
    (∀ fragment : List Char, '-' ∉ fragment → parseInvite fragment = none) := by
  constructor
  · intro room_id hmac hb
    have hnd : '-' ∉ base64Encode hmac := by
      intro hmem
      rcases base64Encode_chars hmac hb '-' hmem with h | ⟨n, hn, h⟩
      · exact absurd h (by decide)
      · exact absurd h.symm (base64Char_ne_dash n hn)
    have hfind : rfindDash (room_id ++ '-' :: base64Encode hmac) =
        some room_id.length := rfindDash_append room_id _ hnd
    have htake : (room_id ++ '-' :: base64Encode hmac).take room_id.length =
        room_id := List.take_left room_id _
    have hdrop : (room_id ++ '-' :: base64Encode hmac).drop
        (room_id.length + 1) = base64Encode hmac := by
      have hsplit : room_id ++ '-' :: base64Encode hmac =
          (room_id ++ ['-']) ++ base64Encode hmac := by simp
      rw [hsplit]
      exact List.drop_left' (by simp)
    unfold parseInvite mkInvite
    rw [hfind]
    dsimp only
    rw [htake, hdrop, base64_roundtrip hmac hb]
  · intro fragment hnf
    unfold parseInvite
    rw [rfindDash_of_not_mem fragment hnf]

/-- Witness for C6: a hyphenated room id and the 32-byte secret
`0, 1, …, 31` survive the invite round-trip, and a separator-free invite
is rejected. -/
theorem claim_C6_witness :
    parseInvite (mkInvite ['a', 'b', '-', 'c', 'd'] (List.range 32)) =
      some (['a', 'b', '-', 'c', 'd'], List.range 32) ∧
    parseInvite ['n', 'o', 's', 'e', 'p'] = none :=
  ⟨claim_C6_invite_roundtrip.1 ['a', 'b', '-', 'c', 'd'] (List.range 32)
    (by decide),
   claim_C6_invite_roundtrip.2 ['n', 'o', 's', 'e', 'p'] (by decide)⟩

/-! ## Claim C3 -/

lemma seqsFor_nil (i : Nat) : seqsFor i [] = [] := rfl

lemma seqsFor_cons_eq {i a : Nat} {s : Nat} {l : List (Nat × Nat)}
    (h : a = i) : seqsFor i ((a, s) :: l) = s :: seqsFor i l := by
  simp [seqsFor, h]

lemma seqsFor_cons_ne {i a : Nat} {s : Nat} {l : List (Nat × Nat)}
    (h : a ≠ i) : seqsFor i ((a, s) :: l) = seqsFor i l := by
  simp [seqsFor, h]

/-- Inversion of an accepted chunk: the packet's sequence equalled the
counter, and the handler either crossed a file boundary (resetting the
counter) or stayed in the file (incrementing it). -/
lemma recv_on_chunk_continue (ctx : RecvContext) (s : Nat) (data : List Nat)
    (ctx' : RecvContext) (sent : List (Nat × Nat))
    (h : recv_on_chunk ctx s data = (.Continue, ctx', sent)) :
    s = ctx.sequence ∧
    ((ctx'.index = ctx.index + 1 ∧ ctx'.sequence = 0) ∨
     (ctx'.index = ctx.index ∧ ctx'.sequence = ctx.sequence + 1)) := by
  unfold recv_on_chunk at h
  by_cases h1 : ctx.shared_key = none
  · rw [if_pos h1] at h
    simp at h
  · rw [if_neg h1] at h
    by_cases h2 : s ≠ ctx.sequence
    · rw [if_pos h2] at h
      simp at h
    · rw [if_neg h2] at h
      push_neg at h2
      refine ⟨h2, ?_⟩
      cases hfile : ctx.files.get? ctx.index with
      | none =>
        rw [hfile] at h
        simp at h
      | some file =>
        rw [hfile] at h
        dsimp only at h
        by_cases hb : file.size = ctx.length + data.length
        · rw [if_pos hb] at h
          rw [Prod.mk.injEq, Prod.mk.injEq] at h
          obtain ⟨-, hctx, -⟩ := h
          rw [← hctx]
          left
          exact ⟨rfl, rfl⟩
        · rw [if_neg hb] at h
          rw [Prod.mk.injEq, Prod.mk.injEq] at h
          obtain ⟨-, hctx, -⟩ := h
          rw [← hctx]
          right
          exact ⟨rfl, rfl⟩

/-- Run invariant: within the current file the accepted sequence numbers
continue from the current counter; files already finished hold an
initial segment; files not yet begun hold a fresh initial segment. -/
lemma runChunks_seqsFor : ∀ (chunks : List (Nat × List Nat))
    (ctx : RecvContext) (i : Nat),
    (i < ctx.index → seqsFor i (runChunks ctx chunks) = []) ∧
    (i = ctx.index → ∃ k, seqsFor i (runChunks ctx chunks) =
      List.range' ctx.sequence k) ∧
    (ctx.index < i → ∃ k, seqsFor i (runChunks ctx chunks) =
      List.range k) := by
  intro chunks
  induction chunks with
  | nil =>
    intro ctx i
    refine ⟨fun _ => rfl, fun _ => ⟨0, rfl⟩, fun _ => ⟨0, rfl⟩⟩
  | cons head rest ih =>
    intro ctx i
    obtain ⟨s, data⟩ := head
    show (i < ctx.index → seqsFor i (runChunks ctx ((s, data) :: rest)) = []) ∧ _
    unfold runChunks
    cases hstep : recv_on_chunk ctx s data with
    | mk status rest2 =>
      obtain ⟨ctx', sent⟩ := rest2
      cases status with
      | Exit =>
        exact ⟨fun _ => rfl, fun _ => ⟨0, rfl⟩, fun _ => ⟨0, rfl⟩⟩
      | Err m =>
        exact ⟨fun _ => rfl, fun _ => ⟨0, rfl⟩, fun _ => ⟨0, rfl⟩⟩
      | Continue =>
        obtain ⟨hs, hcase⟩ := recv_on_chunk_continue ctx s data ctx' sent hstep
        dsimp only
        rcases hcase with ⟨hidx, hseq⟩ | ⟨hidx, hseq⟩
        · refine ⟨?_, ?_, ?_⟩
          · intro hlt
            rw [seqsFor_cons_ne (by omega)]
            exact (ih ctx' i).1 (by omega)
          · intro heq
            rw [seqsFor_cons_eq (by omega)]
            have hnil := (ih ctx' i).1 (by omega)
            rw [hnil, hs]
            exact ⟨1, by rw [List.range'_one]⟩
          · intro hgt
            rw [seqsFor_cons_ne (by omega)]
            rcases Nat.lt_or_ge ctx'.index i with hgt2 | hge2
            · exact (ih ctx' i).2.2 hgt2
            · have heq2 : i = ctx'.index := by omega
              obtain ⟨k, hk⟩ := (ih ctx' i).2.1 heq2
              rw [hseq] at hk
              exact ⟨k, by rw [hk, List.range_eq_range']⟩
        · refine ⟨?_, ?_, ?_⟩
          · intro hlt
            rw [seqsFor_cons_ne (by omega)]
            exact (ih ctx' i).1 (by omega)
          · intro heq
            rw [seqsFor_cons_eq (by omega)]
            obtain ⟨k, hk⟩ := (ih ctx' i).2.1 (by omega)
            rw [hseq] at hk
            rw [hk, hs]
            exact ⟨k + 1, by rw [List.range'_succ]⟩
          · intro hgt
            rw [seqsFor_cons_ne (by omega)]
            exact (ih ctx' i).2.2 (by omega)

/-- C3: the chunk handler accepts a packet only when its sequence equals
the current counter, answering a sequence-mismatch error (with no bytes
written and nothing sent) otherwise; crossing a file boundary (bytes
written reaching the file's size) advances the file index and resets the
counter, bytes-written count and last-progress value to 0; consequently
in every run starting with counter 0 the accepted chunks of each file
carry sequences `0, 1, 2, …` with no gaps. -/
theorem claim_C3_chunk_sequence :
    (∀ (ctx : RecvContext) (seq : Nat) (chunk : List Nat),
      ctx.shared_key ≠ none → seq ≠ ctx.sequence →
      recv_on_chunk ctx seq chunk =
        (.Err ("Expected sequence " ++ toString ctx.sequence ++
          ", but got " ++ toString seq ++ "."), ctx, [])) ∧
    (∀ (ctx : RecvContext) (seq : Nat) (chunk : List Nat)
      (file : RecvFile) (ctx' : RecvContext) (sent : List (Nat × Nat)),
      ctx.files.get? ctx.index = some file →
      file.size = ctx.length + chunk.length →
      recv_on_chunk ctx seq chunk = (.Continue, ctx', sent) →
      ctx'.index = ctx.index + 1 ∧ ctx'.sequence = 0 ∧
        ctx'.length = 0 ∧ ctx'.progress = 0) ∧
    (∀ (chunks : List (Nat × List Nat)) (ctx : RecvContext),
      ctx.sequence = 0 → ∀ i : Nat,
      ∃ n, seqsFor i (runChunks ctx chunks) = List.range n) ∧
    (∀ (ctx : RecvContext) (seq : Nat) (chunk : List Nat)
      (ctx' : RecvContext) (sent : List (Nat × Nat)),
      recv_on_chunk ctx seq chunk = (.Continue, ctx', sent) →
      seq = ctx.sequence) := by
  refine ⟨?_, ?_, ?_, ?_⟩
  · intro ctx seq chunk hkey hseq
    unfold recv_on_chunk
    rw [if_neg hkey, if_pos hseq]
  · intro ctx seq chunk file ctx' sent hfile hsize h
    unfold recv_on_chunk at h
    by_cases h1 : ctx.shared_key = none
    · rw [if_pos h1] at h
      simp at h
    · rw [if_neg h1] at h
      by_cases h2 : seq ≠ ctx.sequence
      · rw [if_pos h2] at h
        simp at h
      · rw [if_neg h2] at h
        rw [hfile] at h
        dsimp only at h
        rw [if_pos hsize] at h
        rw [Prod.mk.injEq, Prod.mk.injEq] at h
        obtain ⟨-, hctx, -⟩ := h
        rw [← hctx]
        exact ⟨rfl, rfl, rfl, rfl⟩
  · intro chunks ctx hseq0 i
    have h := runChunks_seqsFor chunks ctx i
    rcases Nat.lt_trichotomy i ctx.index with hlt | heq | hgt
    · exact ⟨0, h.1 hlt⟩
    · obtain ⟨k, hk⟩ := h.2.1 heq
      rw [hseq0] at hk
      exact ⟨k, by rw [hk, List.range_eq_range']⟩
    · exact h.2.2 hgt
  · intro ctx seq chunk ctx' sent h
    exact (recv_on_chunk_continue ctx seq chunk ctx' sent h).1

/-- Witness for C3: a fresh two-file context accepts sequences 0,1 for a
two-chunk first file, restarts at 0 on the second, and rejects a
mismatching sequence. -/
theorem claim_C3_witness :
    recv_on_chunk
      { hmac := [], shared_key := some [0], files := [⟨"f", 2, 0, []⟩],
        sequence := 0, index := 0, progress := 0, length := 0 } 5 [1] =
      (.Err "Expected sequence 0, but got 5.",
       { hmac := [], shared_key := some [0], files := [⟨"f", 2, 0, []⟩],
         sequence := 0, index := 0, progress := 0, length := 0 }, []) ∧
    (∃ n, seqsFor 0 (runChunks
      { hmac := [], shared_key := some [0],
        files := [⟨"f", 2, 0, []⟩, ⟨"g", 1, 0, []⟩],
        sequence := 0, index := 0, progress := 0, length := 0 }
      [(0, [7]), (1, [8]), (0, [9])]) = List.range n) := by
  constructor
  · exact claim_C3_chunk_sequence.1
      { hmac := [], shared_key := some [0], files := [⟨"f", 2, 0, []⟩],
        sequence := 0, index := 0, progress := 0, length := 0 } 5 [1]
      (by decide) (by decide)
  · exact claim_C3_chunk_sequence.2.2.1 [(0, [7]), (1, [8]), (0, [9])]
      { hmac := [], shared_key := some [0],
        files := [⟨"f", 2, 0, []⟩, ⟨"g", 1, 0, []⟩],
        sequence := 0, index := 0, progress := 0, length := 0 } rfl 0

end Caesar
